import Mathlib

/-!
Verification development for the FROST/ROAST threshold-Schnorr implementation
(threshold-network/roast-go). Go source functions are shallowly embedded as
Lean definitions: byte slices become lists of naturals, big integers become
ℕ/ℤ with explicit modular reduction, maps become association lists or update
functions, and the third-party secp256k1 group operations (go-ethereum
ScalarBaseMult/ScalarMult/Add) are abstracted as parameters since their code
is outside this repository. Field-level arithmetic performed inside the
repository (liftX, curve membership, point serialization) is embedded
concretely.
-/

set_option maxRecDepth 10000

/-- Byte strings are lists of naturals; every producer in this file emits
values below 256. -/
abbrev Bytes : Type := List Nat

/-- Big-endian encoding of a natural into exactly `k` bytes, truncating high
bits like go-ethereum readBits does when the buffer is short. -/
def toBytesBE : Nat → Nat → List Nat
  | 0, _ => []
  | k + 1, n => toBytesBE k (n / 256) ++ [n % 256]

/-- Embeds os2ip from frost/bip340.go: a byte string read as a big-endian
nonnegative integer (big.Int.SetBytes). -/
def os2ip (b : List Nat) : Nat := b.foldl (fun acc d => acc * 256 + d) 0

theorem length_toBytesBE (k n : Nat) : (toBytesBE k n).length = k := by
  induction k generalizing n with
  | zero => rfl
  | succ k ih => simp [toBytesBE, ih]

theorem os2ip_from (init : Nat) (b : List Nat) :
    b.foldl (fun acc d => acc * 256 + d) init = init * 256 ^ b.length + os2ip b := by
  induction b generalizing init with
  | nil => simp [os2ip]
  | cons d rest ih =>
    simp only [List.foldl_cons, os2ip, List.length_cons]
    rw [ih (init * 256 + d), ih (0 * 256 + d)]
    ring

theorem os2ip_toBytesBE (k n : Nat) (h : n < 256 ^ k) :
    os2ip (toBytesBE k n) = n := by
  induction k generalizing n with
  | zero =>
    simp only [Nat.pow_zero, Nat.lt_one_iff] at h
    simp [toBytesBE, os2ip, h]
  | succ k ih =>
    have hdiv : n / 256 < 256 ^ k := by
      rw [Nat.div_lt_iff_lt_mul (by norm_num)]
      calc n < 256 ^ (k + 1) := h
        _ = 256 ^ k * 256 := by ring
    simp only [toBytesBE, os2ip, List.foldl_append, List.foldl_cons, List.foldl_nil]
    have := os2ip_from 0 (toBytesBE k (n / 256))
    simp only [Nat.zero_mul, Nat.zero_add] at this
    rw [show (toBytesBE k (n / 256)).foldl (fun acc d => acc * 256 + d) 0 =
      os2ip (toBytesBE k (n / 256)) from rfl, ih _ hdiv]
    omega

/-- Field prime of secp256k1 (go-ethereum BitCurve.P). -/
def Psecp : Nat :=
  115792089237316195423570985008687907853269984665640564039457584007908834671663

/-- Group order of secp256k1 (go-ethereum BitCurve.N). -/
def Nsecp : Nat :=
  115792089237316195423570985008687907852837564279074904382605163141518161494337

/-- Affine point with the conventional identity sentinel (0, 0); mirrors the
Point struct with two big.Int coordinates. -/
structure Pt where
  x : Nat
  y : Nat
deriving DecidableEq, Repr

/-- Embeds go-ethereum BitCurve.IsOnCurve, used by Bip340Curve.IsPointOnCurve:
compares y^2 mod P with x^3 + 7 mod P, with no range check on the inputs. -/
def isOnCurve (x y : Nat) : Bool :=
  (y * y) % Psecp == (x * x * x + 7) % Psecp

/-- Fuel-driven modular exponentiation by repeated squaring; models
big.Int.Exp with a positive modulus. The fuel only bounds the recursion
depth, which is at most log2 of the exponent plus one. -/
def powModFuel : Nat → Nat → Nat → Nat → Nat
  | 0, _, _, m => 1 % m
  | fuel + 1, b, e, m =>
    if e = 0 then 1 % m
    else
      let r := powModFuel fuel ((b * b) % m) (e / 2) m
      if e % 2 = 1 then (r * b) % m else r

/-- Models big.Int.Exp (b, e, m) for m > 0. -/
def powMod (b e m : Nat) : Nat := powModFuel (e + 1) b e m

/-- Embeds liftX from frost/participant.go: fails if x ≥ P; computes
c = x^3 + 7 mod P and y = c^((P+1)/4) mod P; fails unless y^2 ≡ c; negates
an odd y so the result always has even Y. -/
def liftX (x : Nat) : Option Pt :=
  if Psecp ≤ x then none
  else
    let c := (powMod x 3 Psecp + 7) % Psecp
    let e := (Psecp + 1) / 4
    let y := powMod c e Psecp
    let y2 := powMod y 2 Psecp
    if c ≠ y2 then none
    else if y % 2 ≠ 0 then some ⟨x, Psecp - y⟩
    else some ⟨x, y⟩

/-- Embeds Bip340Ciphersuite.EncodePoint: 32-byte big-endian encoding of the
X coordinate reduced mod P. -/
def encodePoint (p : Pt) : List Nat := toBytesBE 32 (p.x % Psecp)

theorem os2ip_encodePoint (p : Pt) : os2ip (encodePoint p) = p.x % Psecp := by
  have hlt : p.x % Psecp < 256 ^ 32 := by
    have h1 : p.x % Psecp < Psecp := Nat.mod_lt _ (by decide)
    have h2 : Psecp < 256 ^ 32 := by decide
    omega
  exact os2ip_toBytesBE 32 _ hlt

theorem jacobiSym_seven_Psecp : jacobiSym 7 Psecp = -1 := by
  have h7 : (7 : Nat) % 4 = 3 := by decide
  have hp : Psecp % 4 = 3 := by decide
  have hrec := jacobiSym.quadratic_reciprocity_three_mod_four h7 hp
  have h1 : ((Psecp : Int) % ((7 : Nat) : Int)) = 1 := by decide
  have hmod := jacobiSym.mod_left (Psecp : Int) 7
  rw [h1] at hmod
  rw [show ((7 : Nat) : Int) = (7 : Int) from rfl] at hrec
  rw [hrec, hmod, jacobiSym.one_left]

theorem seven_nonsquare : ¬ IsSquare ((7 : Int) : ZMod Psecp) :=
  ZMod.nonsquare_of_jacobiSym_eq_neg_one jacobiSym_seven_Psecp

theorem no_sqrt_seven (y : Nat) : (y * y) % Psecp ≠ 7 := by
  intro h
  apply seven_nonsquare
  refine ⟨(y : ZMod Psecp), ?_⟩
  have hcast := congrArg (fun n : Nat => (n : ZMod Psecp)) h
  simp only at hcast
  rw [ZMod.natCast_mod, Nat.cast_mul] at hcast
  rw [show ((7 : Int) : ZMod Psecp) = (((7 : Nat) : ZMod Psecp)) by norm_cast]
  exact hcast.symm

theorem isOnCurve_Psecp_eq_false (y : Nat) : isOnCurve Psecp y = false := by
  unfold isOnCurve
  have hr : (Psecp * Psecp * Psecp + 7) % Psecp = 7 := by
    rw [Nat.add_comm, Nat.add_mul_mod_self_right]
    decide
  rw [hr]
  simp only [beq_eq_false_iff_ne, ne_eq]
  exact no_sqrt_seven y

/-- Abstraction of the elliptic-curve group operations used by the frost
package. EcBaseMul, EcMul, EcAdd and EcSub wrap go-ethereum library routines
whose code lives outside this repository, so they are fields of a structure
rather than concrete definitions; order, identity, point validation and
serialization are instantiated concretely where a claim needs them. -/
structure Curve where
  ecBaseMul : Int → Pt
  ecMul : Pt → Int → Pt
  ecAdd : Pt → Pt → Pt
  ecSub : Pt → Pt → Pt
  identity : Pt
  order : Int
  isPointOnCurve : Pt → Bool
  serializePoint : Pt → Bytes

/-- Schnorr signature as produced by Aggregate: a commitment point R and a
scalar z. -/
structure Signature where
  R : Pt
  z : Int
deriving DecidableEq, Repr

/-- Distinct error kinds returned by VerifySignature, one per fmt.Errorf
message in frost/participant.go: "publicKey is infinite", "publicKey exceeds
field size", "liftX failed", "r >= P", "s >= N", "R is infinite", "R.y is not
even", "R.x != r". -/
inductive VerifyError where
  | pkNotOnCurve
  | pkXExceedsField
  | liftXFailed
  | rGeqP
  | sGeqN
  | rInfinite
  | rYOdd
  | rXMismatch
deriving DecidableEq, Repr

/-- Embeds Bip340Ciphersuite.VerifySignature from frost/participant.go.
The H2 hash (tagged SHA-256 reduced to a scalar) is abstracted as `h2`
applied to the concatenated input bytes; the code applies a second mod N on
top of it, as the Go source does. Returns none on acceptance and the
distinct error of the first failed check otherwise. -/
def VerifySignature (ops : Curve) (h2 : Bytes → Int) (signature : Signature)
    (publicKey : Pt) (message : Bytes) : Option VerifyError :=
  if isOnCurve publicKey.x publicKey.y = false then some .pkNotOnCurve
  else if Psecp < publicKey.x then some .pkXExceedsField
  else
    match liftX (os2ip (encodePoint publicKey)) with
    | none => some .liftXFailed
    | some pLifted =>
      if Psecp ≤ signature.R.x then some .rGeqP
      else if (Nsecp : Int) ≤ signature.z then some .sGeqN
      else
        let e := (h2 (encodePoint signature.R ++ encodePoint pLifted ++ message)) % (Nsecp : Int)
        let rPoint := ops.ecSub (ops.ecBaseMul signature.z) (ops.ecMul pLifted e)
        if isOnCurve rPoint.x rPoint.y = false then some .rInfinite
        else if rPoint.y % 2 ≠ 0 then some .rYOdd
        else if rPoint.x ≠ signature.R.x then some .rXMismatch
        else none

/-- Restates the claim's description of verification: the checks in the
claim's order, with PK.X ≥ P (not the code's strict >) rejected after the
on-curve test, and lift_x applied to PK's X coordinate directly. This
definition follows the specification text and is compared against the
embedded code above. -/
def VerifySignatureSpec (ops : Curve) (h2 : Bytes → Int) (signature : Signature)
    (publicKey : Pt) (message : Bytes) : Option VerifyError :=
  if isOnCurve publicKey.x publicKey.y = false then some .pkNotOnCurve
  else if Psecp ≤ publicKey.x then some .pkXExceedsField
  else
    match liftX publicKey.x with
    | none => some .liftXFailed
    | some pLifted =>
      if Psecp ≤ signature.R.x then some .rGeqP
      else if (Nsecp : Int) ≤ signature.z then some .sGeqN
      else
        let e := (h2 (encodePoint signature.R ++ encodePoint pLifted ++ message)) % (Nsecp : Int)
        let rPoint := ops.ecSub (ops.ecBaseMul signature.z) (ops.ecMul pLifted e)
        if isOnCurve rPoint.x rPoint.y = false then some .rInfinite
        else if rPoint.y % 2 ≠ 0 then some .rYOdd
        else if rPoint.x ≠ signature.R.x then some .rXMismatch
        else none

/-- C2: VerifySignature accepts exactly when the claim's conditions all hold
and otherwise returns the distinct error of the first violated condition, in
the claim's order (PK on curve; PK.X ≥ P rejected; lift_x succeeds;
sig.R.X < P; sig.z < N; R' on curve, even Y, X equal to sig.R.X). The code
checks PK.X > P strictly, but a point with X = P cannot pass the on-curve
test because 7 is not a quadratic residue mod P, so the code agrees with the
spec reading on every input, for any group operations and any hash. -/
theorem VerifySignature_matches_spec (ops : Curve) (h2 : Bytes → Int)
    (signature : Signature) (publicKey : Pt) (message : Bytes) :
    VerifySignature ops h2 signature publicKey message =
      VerifySignatureSpec ops h2 signature publicKey message := by
  unfold VerifySignature VerifySignatureSpec
  by_cases hc : isOnCurve publicKey.x publicKey.y = false
  · simp only [hc, if_true]
  · rw [Bool.not_eq_false] at hc
    rcases lt_trichotomy publicKey.x Psecp with hlt | heq | hgt
    · have h1 : ¬ (Psecp < publicKey.x) := by omega
      have h1' : ¬ (Psecp ≤ publicKey.x) := by omega
      have henc : os2ip (encodePoint publicKey) = publicKey.x := by
        rw [os2ip_encodePoint, Nat.mod_eq_of_lt hlt]
      simp only [hc, Bool.true_eq_false, if_false, h1, h1', henc]
    · exfalso
      rw [heq, isOnCurve_Psecp_eq_false] at hc
      exact Bool.false_ne_true hc
    · have h1 : Psecp < publicKey.x := hgt
      have h1' : Psecp ≤ publicKey.x := le_of_lt hgt
      simp only [hc, Bool.true_eq_false, if_false, h1, h1', if_true]

/-- C10: on an on-curve public key, verification depends only on the X
coordinate: the two on-curve points (X, y) and (X, P − y) produce the same
verdict and the same error for every signature and message, because the Y
coordinate is consulted only by the on-curve test before the key is reduced
to X-only form. -/
theorem VerifySignature_xonly (ops : Curve) (h2 : Bytes → Int)
    (signature : Signature) (message : Bytes) (x y : Nat)
    (hy : isOnCurve x y = true) (hy' : isOnCurve x (Psecp - y) = true) :
    VerifySignature ops h2 signature ⟨x, y⟩ message =
      VerifySignature ops h2 signature ⟨x, Psecp - y⟩ message := by
  unfold VerifySignature
  simp only [hy, hy', Bool.true_eq_false, if_false]
  have hpk : encodePoint (⟨x, y⟩ : Pt) = encodePoint (⟨x, Psecp - y⟩ : Pt) := rfl
  rw [hpk]

/-- Witness for C10 at the secp256k1 base point G: both (Gx, Gy) and
(Gx, P − Gy) lie on the curve, and the theorem applies to give equal
verification outcomes for a concrete signature and message. -/
theorem VerifySignature_xonly_witness :
    isOnCurve 55066263022277343669578718895168534326250603453777594175500187360389116729240
      32670510020758816978083085130507043184471273380659243275938904335757337482424 = true ∧
    VerifySignature ⟨fun _ => ⟨0, 0⟩, fun _ _ => ⟨0, 0⟩, fun _ _ => ⟨0, 0⟩,
        fun _ _ => ⟨0, 0⟩, ⟨0, 0⟩, 0, fun _ => false, fun _ => []⟩ (fun _ => 0)
      ⟨⟨0, 0⟩, 0⟩
      ⟨55066263022277343669578718895168534326250603453777594175500187360389116729240,
        32670510020758816978083085130507043184471273380659243275938904335757337482424⟩ [] =
    VerifySignature ⟨fun _ => ⟨0, 0⟩, fun _ _ => ⟨0, 0⟩, fun _ _ => ⟨0, 0⟩,
        fun _ _ => ⟨0, 0⟩, ⟨0, 0⟩, 0, fun _ => false, fun _ => []⟩ (fun _ => 0)
      ⟨⟨0, 0⟩, 0⟩
      ⟨55066263022277343669578718895168534326250603453777594175500187360389116729240,
        Psecp - 32670510020758816978083085130507043184471273380659243275938904335757337482424⟩ [] :=
  ⟨by decide, VerifySignature_xonly _ _ _ _ _ _ (by decide) (by decide)⟩

/-- NonceCommitment from frost/participant.go: the owning signer's index and
the two public nonce commitment points. -/
structure NonceCommitment where
  signerIndex : Nat
  hidingNonceCommitment : Pt
  bindingNonceCommitment : Pt
deriving DecidableEq, Repr

/-- Validation error kinds, one per fmt.Errorf message in the commitment
validation loop: nil entry at a position, indices not in ascending order,
binding or hiding commitment not a valid non-identity curve point, and the
signer-context error for a missing self commitment. -/
inductive ValidationError where
  | entryNil (position : Nat)
  | notAscending (position prev cur : Nat)
  | bindingNotOnCurve (signerIndex : Nat)
  | hidingNotOnCurve (signerIndex : Nat)
  | selfMissing
deriving DecidableEq, Repr

/-- Accumulation loop of the base commitment validation: walks the list with
the current position and the previous signer index, collecting errors in
list order (nil entry; not ascending; binding commitment invalid; hiding
commitment invalid) and recording each entry's signer index as a
participant (a nil entry leaves the preallocated zero). -/
def validateLoop (curve : Curve) :
    List (Option NonceCommitment) → Nat → Nat → List ValidationError × List Nat
  | [], _, _ => ([], [])
  | c? :: rest, pos, last =>
    match c? with
    | none =>
      let r := validateLoop curve rest (pos + 1) last
      (.entryNil pos :: r.1, 0 :: r.2)
    | some c =>
      let e1 : List ValidationError :=
        if c.signerIndex ≤ last then [.notAscending pos last c.signerIndex] else []
      let e2 : List ValidationError :=
        if curve.isPointOnCurve c.bindingNonceCommitment = false
        then [.bindingNotOnCurve c.signerIndex] else []
      let e3 : List ValidationError :=
        if curve.isPointOnCurve c.hidingNonceCommitment = false
        then [.hidingNotOnCurve c.signerIndex] else []
      let r := validateLoop curve rest (pos + 1) c.signerIndex
      (e1 ++ e2 ++ e3 ++ r.1, c.signerIndex :: r.2)

/-- Modelled from the spec: validateGroupCommitmentsBase is called from
frost/coordinator.go and from the current signer revision but its own body is
not among the provided sources; per spec §4.4.1 it performs the base checks
(no nil entry, strictly ascending signer indices, on-curve non-identity
commitment points) in a single pass, accumulating errors in list order, and
returns the participant indices only when no error occurred. The loop
structure follows the in-source accumulation loop of frost/signer.go. -/
def validateGroupCommitmentsBase (curve : Curve)
    (commitments : List (Option NonceCommitment)) :
    List ValidationError × Option (List Nat) :=
  let r := validateLoop curve commitments 0 0
  if r.1 = [] then ([], some r.2) else (r.1, none)

/-- Embeds validateGroupCommitments from the current signer revision
(src/unnamed/part_001): in signer context the function first scans for this
signer's commitment; when it is absent it returns the single missing-self
error without performing the base validations, otherwise it delegates to the
base validation. -/
def validateGroupCommitments (curve : Curve) (selfIndex : Nat)
    (commitments : List (Option NonceCommitment)) :
    List ValidationError × Option (List Nat) :=
  let found := commitments.any fun c? =>
    match c? with
    | some c => c.signerIndex == selfIndex
    | none => false
  if found = false then ([.selfMissing], none)
  else validateGroupCommitmentsBase curve commitments

/-- C4: when the self index does not appear in the commitment list, signer
validation returns exactly the single missing-self error, regardless of any
nil entries, out-of-order indices, or invalid commitment points also present
in the list. -/
theorem validateGroupCommitments_selfMissing (curve : Curve) (selfIndex : Nat)
    (commitments : List (Option NonceCommitment))
    (habsent : ∀ c ∈ commitments, ∀ cc, c = some cc → cc.signerIndex ≠ selfIndex) :
    validateGroupCommitments curve selfIndex commitments =
      ([ValidationError.selfMissing], none) := by
  unfold validateGroupCommitments
  have hfound : (commitments.any fun c? =>
      match c? with
      | some c => c.signerIndex == selfIndex
      | none => false) = false := by
    rw [List.any_eq_false]
    intro c? hc
    match c? with
    | none => simp
    | some cc =>
      simp only [beq_iff_eq]
      exact habsent (some cc) hc cc rfl
  simp only [hfound, if_true]

/-- Concrete curve instance used by witnesses: trivial group operations (the
group law is irrelevant to the validated properties), the secp256k1 order,
and the real point validity check of Bip340Curve (on-curve and not the
identity sentinel). -/
def witnessCurve : Curve :=
  ⟨fun _ => ⟨0, 0⟩, fun _ _ => ⟨0, 0⟩, fun a _ => a, fun a _ => a, ⟨0, 0⟩,
    (Nsecp : Int), fun p => isOnCurve p.x p.y, fun _ => []⟩

/-- Witness for C4: a list containing a nil entry, indices out of order, and
identity-sentinel commitment points, but no commitment of signer 1;
validation in signer context for signer 1 reports only the missing-self
error. -/
theorem validateGroupCommitments_selfMissing_witness :
    validateGroupCommitments witnessCurve 1
      [none, some ⟨5, ⟨0, 0⟩, ⟨0, 0⟩⟩, some ⟨3, ⟨1, 1⟩, ⟨1, 1⟩⟩] =
      ([ValidationError.selfMissing], none) :=
  validateGroupCommitments_selfMissing _ _ _ (by decide)

/-- Embeds the concat helper of frost/participant.go: copies the first slice
and appends the rest, yielding the plain concatenation. -/
def concatGo (a : Bytes) (bs : List Bytes) : Bytes :=
  bs.foldl (fun acc b => acc ++ b) a

/-- Models Go's copy(dst, src): overwrites the first min(len dst, len src)
elements of dst with those of src, leaving the tail of dst unchanged. -/
def goCopy (dst src : List Nat) : List Nat :=
  src.take (min dst.length src.length) ++ dst.drop (min dst.length src.length)

/-- Models binary.BigEndian.AppendUint64: returns the slice extended by the
eight big-endian bytes of the value. The backing array of a full slice is
not shared, so the argument itself is unchanged. -/
def appendUint64BE (b : Bytes) (v : Nat) : Bytes := b ++ toBytesBE 8 v

/-- Embeds the rho_input construction of computeBindingFactors in
frost/participant.go and frost/signer.go: a buffer of len(prefix)+8 zero
bytes is allocated, the prefix is copied in, and AppendUint64 is invoked on
the buffer with its result discarded, exactly as in the Go source where the
return value of binary.BigEndian.AppendUint64 is not assigned. -/
def rhoInputFrost (pre : Bytes) (i : Nat) : Bytes :=
  let rhoInput := List.replicate (pre.length + 8) 0
  let rhoInput2 := goCopy rhoInput pre
  let _discarded := appendUint64BE rhoInput2 i
  rhoInput2

/-- Embeds the rho_input construction of the prototype computeBindingFactors
(package main): plain concatenation of the prefix with the eight-byte
big-endian signer index (toBytes uses an 8-byte FillBytes). -/
def rhoInputProto (pre : Bytes) (i : Nat) : Bytes :=
  concatGo pre [toBytesBE 8 i]

/-- Ciphersuite hash set with SHA-256-based tagged hashes abstracted as
functions and the curve operations bundled; mirrors the Ciphersuite
interface of frost/ciphersuite.go. -/
structure Ciphersuite where
  h1 : Bytes → Int
  h2 : Bytes → Int
  h4 : Bytes → Bytes
  h5 : Bytes → Bytes
  curve : Curve

/-- Embeds encodeGroupCommitment from frost/participant.go: for each entry in
list order, the 8-byte big-endian signer index followed by the internal
serializations of the hiding and binding commitments. -/
def encodeGroupCommitment (curve : Curve) (commitments : List NonceCommitment) : Bytes :=
  commitments.foldl
    (fun b c =>
      b ++ toBytesBE 8 c.signerIndex
        ++ curve.serializePoint c.hidingNonceCommitment
        ++ curve.serializePoint c.bindingNonceCommitment)
    []

/-- Embeds the rho_input_prefix of computeBindingFactors:
serialize(PK) ∥ H4(msg) ∥ H5(encode_group_commitment_list(list)). -/
def rhoInputPrefixOf (cs : Ciphersuite) (publicKey : Pt) (message : Bytes)
    (commitments : List NonceCommitment) : Bytes :=
  concatGo (cs.curve.serializePoint publicKey)
    [cs.h4 message, cs.h5 (encodeGroupCommitment cs.curve commitments)]

/-- Embeds computeBindingFactors from frost/participant.go as the association
list of signer index and binding factor in commitment-list order; the Go map
keyed by signer index holds the same associations because validated lists
have pairwise distinct indices. -/
def computeBindingFactors (cs : Ciphersuite) (publicKey : Pt) (message : Bytes)
    (commitments : List NonceCommitment) : List (Nat × Int) :=
  let rhoPre := rhoInputPrefixOf cs publicKey message commitments
  commitments.map fun c => (c.signerIndex, cs.h1 (rhoInputFrost rhoPre c.signerIndex))

theorem rhoInputFrost_eq (pre : Bytes) (i : Nat) :
    rhoInputFrost pre i = pre ++ List.replicate 8 0 := by
  unfold rhoInputFrost goCopy
  simp only [List.length_replicate]
  have hk : min (pre.length + 8) pre.length = pre.length := by omega
  rw [hk, List.take_length]
  congr 1
  rw [List.replicate_add]
  rw [show List.drop pre.length (List.replicate pre.length 0 ++ List.replicate 8 0) =
    List.drop (List.replicate (pre.length) (0 : Nat)).length
      (List.replicate pre.length 0 ++ List.replicate 8 0) by rw [List.length_replicate]]
  exact List.drop_left _ _

/-- C1: the byte string actually hashed by H1 for every signer is the prefix
followed by eight zero bytes, not the prefix followed by the big-endian
signer index: the result of binary.BigEndian.AppendUint64 is discarded, so
the index never reaches the buffer. The prototype construction in the
package-main sources concatenates correctly; the two differ on every nonzero
index, witnessed here at index 1 with the empty prefix. -/
theorem computeBindingFactors_rho_input_zero_padded :
    (∀ pre i, rhoInputFrost pre i = pre ++ List.replicate 8 0) ∧
    (∀ pre i, rhoInputProto pre i = pre ++ toBytesBE 8 i) ∧
    rhoInputFrost [] 1 ≠ rhoInputProto [] 1 ∧
    (∀ cs publicKey message comms,
      computeBindingFactors cs publicKey message comms = comms.map fun c =>
        (c.signerIndex,
          cs.h1 (rhoInputPrefixOf cs publicKey message comms ++ List.replicate 8 0))) := by
  refine ⟨rhoInputFrost_eq, ?_, ?_, ?_⟩
  · intro pre i
    rfl
  · decide
  · intro cs publicKey message comms
    unfold computeBindingFactors
    simp only [rhoInputFrost_eq]

/-- Looks up a binding factor by signer index; models the Go map access
bindingFactors[signerIndex] for maps built from lists with pairwise distinct
indices (guaranteed by the prior validation). -/
def bindingFactorFor (bfs : List (Nat × Int)) (i : Nat) : Int :=
  ((bfs.find? fun p => p.1 == i).map Prod.snd).getD 0

/-- Embeds computeGroupCommitment from frost/participant.go: starting from
the identity, add each hiding commitment and the binding commitment scaled
by that signer's binding factor, in list order. -/
def computeGroupCommitment (curve : Curve) (commitments : List NonceCommitment)
    (bfs : List (Nat × Int)) : Pt :=
  commitments.foldl
    (fun gc c =>
      curve.ecAdd gc
        (curve.ecAdd c.hidingNonceCommitment
          (curve.ecMul c.bindingNonceCommitment (bindingFactorFor bfs c.signerIndex))))
    curve.identity

/-- Distinct error kinds of Aggregate: joined commitment-validation errors,
and the three cardinality errors of TestAggregate_Failures ("the number of
commitments and signature shares do not match", "not enough shares",
"too many shares"). -/
inductive AggregateError where
  | invalidCommitments (errs : List ValidationError)
  | sharesCountMismatch (numCommitments numShares : Nat)
  | notEnoughShares (has threshold : Nat)
  | tooManyShares (has groupSize : Nat)
deriving DecidableEq, Repr

/-- Modelled from the spec: the Aggregate revision with cardinality
enforcement is exercised by TestAggregate_Failures but its body is not among
the provided sources; the in-source revision in frost/coordinator.go carries
a TODO marker for the share-count validation directly above the commitment
validation call. Following the spec §4.6 and the three test error messages,
the counts are checked first (mismatch, then below threshold, then above
group size), then the commitment list is validated, then binding factors and
the group commitment are computed and z is folded as
z = (z + z_i) mod order, exactly as in frost/coordinator.go lines 80-94. -/
def Aggregate (cs : Ciphersuite) (threshold maxSigners : Nat) (publicKey : Pt)
    (message : Bytes) (commitments : List (Option NonceCommitment))
    (signatureShares : List Int) : Except AggregateError Signature :=
  if commitments.length ≠ signatureShares.length then
    .error (.sharesCountMismatch commitments.length signatureShares.length)
  else if signatureShares.length < threshold then
    .error (.notEnoughShares signatureShares.length threshold)
  else if maxSigners < signatureShares.length then
    .error (.tooManyShares signatureShares.length maxSigners)
  else
    let validation := validateGroupCommitmentsBase cs.curve commitments
    if validation.1 ≠ [] then .error (.invalidCommitments validation.1)
    else
      let comms := commitments.filterMap id
      let bfs := computeBindingFactors cs publicKey message comms
      let groupCommitment := computeGroupCommitment cs.curve comms bfs
      let z := signatureShares.foldl (fun z zi => (z + zi) % cs.curve.order) 0
      .ok ⟨groupCommitment, z⟩

theorem foldl_add_mod (m : Int) (l : List Int) (a : Int) :
    l.foldl (fun z zi => (z + zi) % m) (a % m) = (a + l.sum) % m := by
  induction l generalizing a with
  | nil => simp
  | cons zi rest ih =>
    simp only [List.foldl_cons, List.sum_cons]
    rw [Int.emod_add_emod, ih (a + zi)]
    congr 1
    ring

theorem foldl_add_mod_zero (m : Int) (l : List Int) :
    l.foldl (fun z zi => (z + zi) % m) 0 = l.sum % m := by
  have h := foldl_add_mod m l 0
  rw [Int.zero_emod] at h
  simpa using h

theorem sum_map_emod (m : Int) (l : List Int) :
    (l.map fun zi => zi % m).sum % m = l.sum % m := by
  induction l with
  | nil => simp
  | cons zi rest ih =>
    simp only [List.map_cons, List.sum_cons]
    rw [Int.add_emod, ih, Int.emod_emod_of_dvd _ (dvd_refl m), ← Int.add_emod]

/-- C3: Aggregate rejects, each with its distinct error, whenever the number
of signature shares differs from the number of commitments, or the common
count is below the threshold, or above the group size; and it returns a
signature only when threshold ≤ count = count ≤ group size. -/
theorem Aggregate_cardinality (cs : Ciphersuite) (threshold maxSigners : Nat)
    (publicKey : Pt) (message : Bytes)
    (commitments : List (Option NonceCommitment)) (shares : List Int) :
    (commitments.length ≠ shares.length →
      Aggregate cs threshold maxSigners publicKey message commitments shares =
        .error (.sharesCountMismatch commitments.length shares.length)) ∧
    (commitments.length = shares.length → shares.length < threshold →
      Aggregate cs threshold maxSigners publicKey message commitments shares =
        .error (.notEnoughShares shares.length threshold)) ∧
    (commitments.length = shares.length → threshold ≤ shares.length →
      maxSigners < shares.length →
      Aggregate cs threshold maxSigners publicKey message commitments shares =
        .error (.tooManyShares shares.length maxSigners)) ∧
    (∀ sig, Aggregate cs threshold maxSigners publicKey message commitments shares =
        .ok sig →
      threshold ≤ shares.length ∧ shares.length = commitments.length ∧
        shares.length ≤ maxSigners) := by
  refine ⟨?_, ?_, ?_, ?_⟩
  · intro hne
    unfold Aggregate
    rw [if_pos hne]
  · intro heq hlt
    unfold Aggregate
    rw [if_neg (by omega), if_pos hlt]
  · intro heq hge hgt
    unfold Aggregate
    rw [if_neg (by omega), if_neg (by omega), if_pos hgt]
  · intro sig hok
    unfold Aggregate at hok
    by_cases h1 : commitments.length ≠ shares.length
    · rw [if_pos h1] at hok
      exact Except.noConfusion hok
    · rw [if_neg h1] at hok
      by_cases h2 : shares.length < threshold
      · rw [if_pos h2] at hok
        exact Except.noConfusion hok
      · rw [if_neg h2] at hok
        by_cases h3 : maxSigners < shares.length
        · rw [if_pos h3] at hok
          exact Except.noConfusion hok
        · omega

/-- Permissive ciphersuite used by aggregation witnesses: trivial hashes and
group operations and a point check that accepts everything, with the
secp256k1 order. -/
def permissiveCiphersuite : Ciphersuite :=
  ⟨fun _ => 0, fun _ => 0, fun _ => [], fun _ => [],
    ⟨fun _ => ⟨0, 0⟩, fun _ _ => ⟨0, 0⟩, fun a _ => a, fun a _ => a, ⟨0, 0⟩,
      (Nsecp : Int), fun _ => true, fun _ => []⟩⟩

/-- Witness for C3: with threshold 1 and group size 1, a count mismatch, an
undersized list, an oversized list, and one successful aggregation each
behave as the theorem states. -/
theorem Aggregate_cardinality_witness :
    Aggregate permissiveCiphersuite 1 1 ⟨0, 0⟩ [] [] [0] =
      .error (.sharesCountMismatch 0 1) ∧
    Aggregate permissiveCiphersuite 1 1 ⟨0, 0⟩ [] [] [] =
      .error (.notEnoughShares 0 1) ∧
    Aggregate permissiveCiphersuite 1 1 ⟨0, 0⟩ [] [none, none] [0, 0] =
      .error (.tooManyShares 2 1) ∧
    (1 ≤ ([(5 : Int)]).length ∧ ([(5 : Int)]).length =
        ([some (⟨1, ⟨0, 0⟩, ⟨0, 0⟩⟩ : NonceCommitment)]).length ∧
      ([(5 : Int)]).length ≤ 1) :=
  ⟨(Aggregate_cardinality permissiveCiphersuite 1 1 ⟨0, 0⟩ [] [] [0]).1 (by decide),
   (Aggregate_cardinality permissiveCiphersuite 1 1 ⟨0, 0⟩ [] [] []).2.1 rfl (by decide),
   (Aggregate_cardinality permissiveCiphersuite 1 1 ⟨0, 0⟩ [] [none, none]
      [0, 0]).2.2.1 rfl (by decide) (by decide),
   (Aggregate_cardinality permissiveCiphersuite 1 1 ⟨0, 0⟩ []
      [some ⟨1, ⟨0, 0⟩, ⟨0, 0⟩⟩] [5]).2.2.2 ⟨⟨0, 0⟩, 5⟩ rfl⟩

/-- C6: on a valid commitment list with matching cardinalities, Aggregate
returns the signature whose z is the sum of the shares reduced mod the group
order N (hence 0 ≤ z < N) and whose R is the group commitment; reducing each
share mod N before aggregating yields the same signature. -/
theorem Aggregate_sum_mod (cs : Ciphersuite) (threshold maxSigners : Nat)
    (publicKey : Pt) (message : Bytes)
    (commitments : List (Option NonceCommitment)) (shares : List Int)
    (horder : cs.curve.order = (Nsecp : Int))
    (hlen : commitments.length = shares.length)
    (hT : threshold ≤ shares.length)
    (hN : shares.length ≤ maxSigners)
    (hvalid : (validateGroupCommitmentsBase cs.curve commitments).1 = []) :
    Aggregate cs threshold maxSigners publicKey message commitments shares =
      .ok ⟨computeGroupCommitment cs.curve (commitments.filterMap id)
            (computeBindingFactors cs publicKey message (commitments.filterMap id)),
          shares.sum % (Nsecp : Int)⟩ ∧
    0 ≤ shares.sum % (Nsecp : Int) ∧
    shares.sum % (Nsecp : Int) < (Nsecp : Int) ∧
    Aggregate cs threshold maxSigners publicKey message commitments
        (shares.map fun zi => zi % (Nsecp : Int)) =
      .ok ⟨computeGroupCommitment cs.curve (commitments.filterMap id)
            (computeBindingFactors cs publicKey message (commitments.filterMap id)),
          shares.sum % (Nsecp : Int)⟩ := by
  have hNpos : (0 : Int) < (Nsecp : Int) := by
    exact_mod_cast (by decide : 0 < Nsecp)
  refine ⟨?_, Int.emod_nonneg _ (ne_of_gt hNpos), Int.emod_lt_of_pos _ hNpos, ?_⟩
  · unfold Aggregate
    rw [if_neg (by omega), if_neg (by omega), if_neg (by omega),
      if_neg (by simp [hvalid])]
    rw [horder, foldl_add_mod_zero]
  · unfold Aggregate
    rw [if_neg (by simp; omega), if_neg (by simp; omega), if_neg (by simp; omega),
      if_neg (by simp [hvalid])]
    rw [horder, foldl_add_mod_zero, sum_map_emod]

/-- Witness for C6: one commitment of signer 1 with threshold and group size
1 and the single share 5; aggregation returns z = 5 mod N with the group
commitment, and pre-reducing the share changes nothing. -/
theorem Aggregate_sum_mod_witness :
    Aggregate permissiveCiphersuite 1 1 ⟨0, 0⟩ []
        [some ⟨1, ⟨0, 0⟩, ⟨0, 0⟩⟩] [5] =
      .ok ⟨computeGroupCommitment permissiveCiphersuite.curve
            ([some (⟨1, ⟨0, 0⟩, ⟨0, 0⟩⟩ : NonceCommitment)].filterMap id)
            (computeBindingFactors permissiveCiphersuite ⟨0, 0⟩ []
              ([some (⟨1, ⟨0, 0⟩, ⟨0, 0⟩⟩ : NonceCommitment)].filterMap id)),
          ([(5 : Int)]).sum % (Nsecp : Int)⟩ ∧
    0 ≤ ([(5 : Int)]).sum % (Nsecp : Int) := by
  have h := Aggregate_sum_mod permissiveCiphersuite 1 1 ⟨0, 0⟩ []
    [some ⟨1, ⟨0, 0⟩, ⟨0, 0⟩⟩] [5] rfl (by decide) (by decide) (by decide) (by decide)
  exact ⟨h.1, h.2.1⟩

/-- Two's-complement wraparound of an integer into the int64 range; models
Go int64 arithmetic including the uint64-to-int64 conversion. -/
def wrapInt64 (z : Int) : Int := (z + 2 ^ 63).emod (2 ^ 64) - 2 ^ 63

/-- Models Go's int64(x) conversion of a uint64 value. -/
def int64OfUint64 (n : Nat) : Int := wrapInt64 ((n % 2 ^ 64 : Nat) : Int)

/-- Fuel-driven extended Euclid on naturals returning gcd and Bezout
coefficients with a·x + b·y = gcd; the fuel only bounds recursion depth. -/
def egcdFuel : Nat → Nat → Nat → Nat × Int × Int
  | 0, a, _ => (a, 1, 0)
  | f + 1, a, b =>
    if b = 0 then (a, 1, 0)
    else
      let q := a / b
      let r := egcdFuel f b (a % b)
      (r.1, r.2.2, r.2.1 - (q : Int) * r.2.2)

/-- Models big.Int.ModInverse (g, n) for n > 0: reduces g mod n, runs the
extended Euclid, and returns the inverse in the range of 0 to n, or none when
g and n are not coprime (Go sets the receiver to nil). -/
def modInverse (g n : Int) : Option Int :=
  let g2 := g.emod n
  let r := egcdFuel (g2.toNat + n.toNat + 2) g2.toNat n.toNat
  if r.1 = 1 then some (r.2.1.emod n) else none

/-- Embeds deriveInterpolatingValue from frost/participant.go: numerator and
denominator accumulate over the participant list with a mod-order reduction
after every multiplication and with the Go int64 conversions of the unsigned
indices, then the denominator is inverted with ModInverse. Returns none when
no inverse exists (the Go code would panic multiplying by nil there). -/
def deriveInterpolatingValue (order : Int) (xi : Nat) (L : List Nat) : Option Int :=
  let nd := L.foldl
    (fun (p : Int × Int) xj =>
      if xj = xi then p
      else
        ((p.1 * int64OfUint64 xj).emod order,
         (p.2 * wrapInt64 (int64OfUint64 xj - int64OfUint64 xi)).emod order))
    (1, 1)
  match modInverse nd.2 order with
  | none => none
  | some denInv => some ((nd.1 * denInv).emod order)

/-- C5: the interpolating values for the participant set 1, 4, 5 at the
secp256k1 group order are exactly the three literals of the specification. -/
theorem deriveInterpolatingValue_literals :
    deriveInterpolatingValue (Nsecp : Int) 1 [1, 4, 5] =
      some 38597363079105398474523661669562635950945854759691634794201721047172720498114 ∧
    deriveInterpolatingValue (Nsecp : Int) 4 [1, 4, 5] =
      some 77194726158210796949047323339125271901891709519383269588403442094345440996223 ∧
    deriveInterpolatingValue (Nsecp : Int) 5 [1, 4, 5] = some 1 := by
  refine ⟨?_, ?_, ?_⟩ <;> decide

/-- Models go-ethereum BitCurve.Marshal, called by SerializePoint in
frost/bip340.go: the uncompressed flag byte 4 followed by the 32-byte
big-endian X and Y coordinates. -/
def Marshal (p : Pt) : Bytes := 4 :: (toBytesBE 32 p.x ++ toBytesBE 32 p.y)

/-- Embeds SerializePoint of Bip340Curve: the 65-byte uncompressed
serialization. -/
def SerializePoint (p : Pt) : Bytes := Marshal p

/-- Models go-ethereum BitCurve.Unmarshal: nil unless the input is exactly
65 bytes starting with the flag byte 4; otherwise reads the two 32-byte
coordinates. -/
def Unmarshal (data : Bytes) : Option (Nat × Nat) :=
  if data.length ≠ 1 + 2 * 32 then none
  else if data.headD 0 ≠ 4 then none
  else some (os2ip ((data.drop 1).take 32), os2ip (data.drop 33))

/-- Embeds DeserializePoint of Bip340Curve from frost/bip340.go: Unmarshal
then reject anything that is not a valid non-identity point on the curve. -/
def DeserializePoint (data : Bytes) : Option Pt :=
  match Unmarshal data with
  | none => none
  | some (x, y) =>
    if isOnCurve x y = false then none
    else some ⟨x, y⟩

/-- C7: DeserializePoint inverts SerializePoint on every on-curve point with
canonical coordinates (the identity sentinel is excluded automatically since
it is not on the curve), and rejects every input of wrong length, every
65-byte encoding of off-curve coordinates, and the identity sentinel's
serialization. -/
theorem DeserializePoint_SerializePoint (p : Pt) (bad : Bytes) (x y : Nat)
    (hx : p.x < Psecp) (hy : p.y < Psecp) (hcurve : isOnCurve p.x p.y = true)
    (hlen : bad.length ≠ 65)
    (hx' : x < 2 ^ 256) (hy' : y < 2 ^ 256) (hoff : isOnCurve x y = false) :
    DeserializePoint (SerializePoint p) = some p ∧
    DeserializePoint bad = none ∧
    DeserializePoint (4 :: (toBytesBE 32 x ++ toBytesBE 32 y)) = none ∧
    DeserializePoint (SerializePoint ⟨0, 0⟩) = none := by
  have hbound : Psecp < 2 ^ 256 := by decide
  have hread : ∀ a b : Nat, a < 2 ^ 256 → b < 2 ^ 256 →
      Unmarshal (4 :: (toBytesBE 32 a ++ toBytesBE 32 b)) = some (a, b) := by
    intro a b ha hb
    unfold Unmarshal
    have hla : (toBytesBE 32 a).length = 32 := length_toBytesBE 32 a
    have hlb : (toBytesBE 32 b).length = 32 := length_toBytesBE 32 b
    rw [if_neg (by simp [hla, hlb]), if_neg (by simp)]
    have htake : ((4 :: (toBytesBE 32 a ++ toBytesBE 32 b)).drop 1).take 32 =
        toBytesBE 32 a := by
      simp only [List.drop_succ_cons, List.drop_zero]
      exact List.take_left' hla
    have hdrop : (4 :: (toBytesBE 32 a ++ toBytesBE 32 b)).drop 33 =
        toBytesBE 32 b := by
      simp only [List.drop_succ_cons]
      exact List.drop_left' hla
    rw [htake, hdrop, os2ip_toBytesBE 32 a (by norm_num at ha ⊢; omega),
      os2ip_toBytesBE 32 b (by norm_num at hb ⊢; omega)]
  refine ⟨?_, ?_, ?_, ?_⟩
  · unfold DeserializePoint SerializePoint Marshal
    rw [hread p.x p.y (by omega) (by omega)]
    simp [hcurve]
  · unfold DeserializePoint Unmarshal
    rw [if_pos (by omega)]
  · unfold DeserializePoint
    rw [hread x y hx' hy']
    simp [hoff]
  · unfold DeserializePoint SerializePoint Marshal
    rw [hread 0 0 (by norm_num) (by norm_num)]
    simp [show isOnCurve 0 0 = false by decide]

/-- Witness for C7 at the secp256k1 base point, the empty byte string, the
off-curve coordinates (1, 1), and the identity sentinel. -/
theorem DeserializePoint_SerializePoint_witness :
    DeserializePoint (SerializePoint
      ⟨55066263022277343669578718895168534326250603453777594175500187360389116729240,
        32670510020758816978083085130507043184471273380659243275938904335757337482424⟩) =
      some ⟨55066263022277343669578718895168534326250603453777594175500187360389116729240,
        32670510020758816978083085130507043184471273380659243275938904335757337482424⟩ ∧
    DeserializePoint [] = none ∧
    DeserializePoint (4 :: (toBytesBE 32 1 ++ toBytesBE 32 1)) = none ∧
    DeserializePoint (SerializePoint ⟨0, 0⟩) = none :=
  DeserializePoint_SerializePoint
    ⟨55066263022277343669578718895168534326250603453777594175500187360389116729240,
      32670510020758816978083085130507043184471273380659243275938904335757337482424⟩
    [] 1 1 (by decide) (by decide) (by decide) (by decide) (by decide) (by decide)
    (by decide)

/-- Commit from the ROAST prototype: participant index with hiding and
binding nonce commitments. -/
structure Commit where
  i : Nat
  hnc : Pt
  bnc : Pt
deriving DecidableEq, Repr

/-- Coordinator behaviour constants of coordinator.go. -/
inductive CoordinatorBehaviour where
  | goodCoordinator
  | doesNotRequestCommits
  | doesNotRequestSignature
  | doesNotAggregate
  | changesMessage
deriving DecidableEq, Repr

/-- RoastRequest of coordinator.go: session identifier, the snapshot of the
commitment list, and the received responses (map modelled as an association
list). -/
structure RoastRequest (K : Type) where
  identifier : K
  commitments : List Commit
  responses : List (Nat × Int)

/-- RoastExecution of coordinator.go: the per-request coordinator state. The
group field is reduced to its only consulted component, the threshold T;
session identifiers are an abstract hash type K and the requests map is an
association list with insert-at-front overwrite semantics. -/
structure RoastExecution (K : Type) where
  coordinatorIndex : Nat
  behaviour : CoordinatorBehaviour
  message : Bytes
  badMembers : List Nat
  commits : List Commit
  requests : List (K × RoastRequest K)
  groupT : Nat

/-- SignRequest message: coordinator index, message, commitment list. -/
structure SignRequest where
  coordinator : Nat
  message : Bytes
  commits : List Commit
deriving DecidableEq, Repr

/-- Embeds HasBad from coordinator.go: membership of the index in the
quarantined bad-member list. -/
def HasBad (badMembers : List Nat) (i : Nat) : Bool :=
  badMembers.any fun bad => i == bad

/-- Embeds the scanning loop of InsertCommit: walk the sorted list carrying
the commit to place; stop unchanged on a duplicate index, swap when passing
a larger index, append the carried commit at the end. -/
def insertCommitLoop : List Commit → Commit → List Commit
  | [], cc => [cc]
  | ccc :: rest, cc =>
    if ccc.i = cc.i then ccc :: rest
    else if cc.i < ccc.i then cc :: insertCommitLoop rest ccc
    else ccc :: insertCommitLoop rest cc

/-- Embeds InsertCommit from coordinator.go, including the empty-list fast
path. -/
def InsertCommit (cs : List Commit) (c : Commit) : List Commit :=
  if cs.isEmpty then [c] else insertCommitLoop cs c

/-- Embeds ReceiveCommit from coordinator.go. The commit-list hash is an
abstract function parameter and the random replacement message of the
ChangesMessage behaviour is externalized as `changedMessage`. Returns the
optional sign request and the successor state; map assignment into requests
becomes a front insertion, which later first-match lookups read as an
overwrite. -/
def ReceiveCommit {K : Type} (commitListHash : List Commit → K)
    (changedMessage : Bytes) (R : RoastExecution K) (commit : Commit) :
    Option SignRequest × RoastExecution K :=
  if HasBad R.badMembers commit.i then (none, R)
  else
    let R1 : RoastExecution K := { R with commits := InsertCommit R.commits commit }
    if R1.commits.length ≠ R1.groupT then (none, R1)
    else if R1.behaviour = .doesNotRequestSignature then (none, R1)
    else
      let requestMessage :=
        if R1.behaviour = .changesMessage then changedMessage else R1.message
      let cs := R1.commits
      let csHash := commitListHash cs
      let R2 : RoastExecution K :=
        { R1 with requests := (csHash, ⟨csHash, cs, []⟩) :: R1.requests, commits := [] }
      (some ⟨R2.coordinatorIndex, requestMessage, cs⟩, R2)

/-- C8: a commitment from a quarantined signer produces no sign request and
leaves the whole coordinator state unchanged, so it neither enters the
pending pool nor becomes part of any session. -/
theorem ReceiveCommit_quarantined {K : Type} (commitListHash : List Commit → K)
    (changedMessage : Bytes) (R : RoastExecution K) (commit : Commit)
    (hbad : HasBad R.badMembers commit.i = true) :
    ReceiveCommit commitListHash changedMessage R commit = (none, R) := by
  unfold ReceiveCommit
  rw [if_pos hbad]

/-- Witness for C8: signer 2 is quarantined; its commit is dropped and the
pending pool and session map are untouched. -/
theorem ReceiveCommit_quarantined_witness :
    ReceiveCommit (fun _ => (0 : Nat)) []
      ⟨7, .goodCoordinator, [], [2], [], [], 1⟩ ⟨2, ⟨0, 0⟩, ⟨0, 0⟩⟩ =
      (none, ⟨7, .goodCoordinator, [], [2], [], [], 1⟩) :=
  ReceiveCommit_quarantined (fun _ => (0 : Nat)) []
    ⟨7, .goodCoordinator, [], [2], [], [], 1⟩ ⟨2, ⟨0, 0⟩, ⟨0, 0⟩⟩ (by decide)

/-- Member behaviour constants of member.go. -/
inductive MemberBehaviour where
  | goodMember
  | doesNotCommit
  | doesNotRespond
  | respondsMaliciously
  | withMaliceAforethought
  | maliciouslyInactive
deriving DecidableEq, Repr

/-- Nonce of the prototype: hiding and binding scalars, nil-able because the
wipe after round 2 stores a nil pair. -/
structure NonceP where
  hn : Option Int
  bn : Option Int
deriving DecidableEq, Repr

/-- MemberResponse of member.go: the commit, its nonce, and the spent flag. -/
structure MemberResponse where
  commit : Commit
  nonce : NonceP
  spent : Bool
deriving DecidableEq, Repr

/-- SignatureShare message: the request identifier (commit-list hash), the
scalar share, and the fresh commitment piggybacked for the next round. -/
structure SignatureShare (K : Type) where
  commitHash : K
  share : Int
  commit : Commit

/-- MemberState of member.go: index, behaviour, keys, and the response map
keyed by response hashes, modelled as a function into optional responses
(Go map of pointers; mutation through the retained pointer is modelled as a
pointwise update at its key). -/
structure MemberState (K : Type) where
  i : Nat
  behaviour : MemberBehaviour
  pk : Pt
  pki : Pt
  ski : Int
  responses : K → Option MemberResponse

/-- Key of the response consulted by RespondS: the Go loop overwrites
`found` on every commit whose index matches this signer, so the last match
wins; the subsequent map read happens at that key. -/
def memberFoundKey {K : Type} (responseHash : Commit → Nat → K) (selfI : Nat)
    (r : SignRequest) : Option K :=
  r.commits.foldl
    (fun acc c => if c.i = selfI then some (responseHash c r.coordinator) else acc)
    none

/-- Embeds RespondS from member.go. Hash functions are abstract parameters;
round1's fresh randomness is externalized as the `fresh` nonce/commit pair,
round 2 as `round2Fn`, and the malicious random share as `maliciousShare`.
An empty commitment list returns no share (the Go code would panic indexing
r.commits[0]; protocol requests always carry the full list). The final map
reflects the Go pointer semantics: the wipe of the found response is visible
at its key unless the fresh insertion overwrote that same key. -/
def RespondS {K : Type} [DecidableEq K] (responseHash : Commit → Nat → K)
    (commitListHash : List Commit → K)
    (round2Fn : Nat → Int → Pt → NonceP → Bytes → List Commit → Int)
    (maliciousShare : Int) (fresh : NonceP × Commit)
    (S : MemberState K) (r : SignRequest) :
    Option (SignatureShare K) × MemberState K :=
  if S.behaviour = .doesNotRespond then (none, S)
  else
    match r.commits with
    | [] => (none, S)
    | firstCommit :: _ =>
      let b := if firstCommit.i = S.i ∧ S.behaviour = .withMaliceAforethought
        then MemberBehaviour.respondsMaliciously else S.behaviour
      if firstCommit.i = S.i ∧ S.behaviour = .maliciouslyInactive then (none, S)
      else
        let requestId := commitListHash r.commits
        match memberFoundKey responseHash S.i r with
        | none => (none, S)
        | some rh =>
          match S.responses rh with
          | none => (none, S)
          | some res =>
            if res.spent then (none, S)
            else
              let newres : MemberResponse := ⟨fresh.2, fresh.1, false⟩
              let rhh := responseHash fresh.2 r.coordinator
              if b = .respondsMaliciously then
                (some ⟨requestId, maliciousShare, fresh.2⟩,
                  { S with responses := fun k =>
                    if k = rhh then some newres else S.responses k })
              else
                let share := round2Fn S.i S.ski S.pk res.nonce r.message r.commits
                (some ⟨requestId, share, fresh.2⟩,
                  { S with responses := fun k =>
                    if k = rhh then some newres
                    else if k = rh then some ⟨res.commit, ⟨none, none⟩, true⟩
                    else S.responses k })


/-- C9: an honest signer that has answered a sign request with a signature
share marks the consumed response spent and erases its nonce, so a second
sign request naming the same commitment list and coordinator returns no
share; the nonce is consumed by round 2 at most once. The hypothesis on the
fresh commitment's response hash rules out a hash collision between the new
entry and the consumed one. -/
theorem RespondS_no_nonce_reuse {K : Type} [DecidableEq K]
    (responseHash : Commit → Nat → K) (commitListHash : List Commit → K)
    (round2Fn : Nat → Int → Pt → NonceP → Bytes → List Commit → Int)
    (maliciousShare : Int) (fresh fresh2 : NonceP × Commit)
    (S : MemberState K) (r : SignRequest) (rh : K) (res : MemberResponse)
    (hb : S.behaviour = .goodMember)
    (hkey : memberFoundKey responseHash S.i r = some rh)
    (hres : S.responses rh = some res)
    (hspent : res.spent = false)
    (hfresh : responseHash fresh.2 r.coordinator ≠ rh) :
    (RespondS responseHash commitListHash round2Fn maliciousShare fresh S r).1 =
      some ⟨commitListHash r.commits,
        round2Fn S.i S.ski S.pk res.nonce r.message r.commits, fresh.2⟩ ∧
    (RespondS responseHash commitListHash round2Fn maliciousShare fresh S r).2.responses rh =
      some ⟨res.commit, ⟨none, none⟩, true⟩ ∧
    (RespondS responseHash commitListHash round2Fn maliciousShare fresh2
      (RespondS responseHash commitListHash round2Fn maliciousShare fresh S r).2 r).1 =
      none := by
  obtain ⟨coord, msg, commits⟩ := r
  cases commits with
  | nil =>
    exfalso
    unfold memberFoundKey at hkey
    simp at hkey
  | cons firstCommit rest =>
    have hfresh2 : responseHash fresh.2 coord ≠ rh := by simpa using hfresh
    have hstep :
        RespondS responseHash commitListHash round2Fn maliciousShare fresh S
          ⟨coord, msg, firstCommit :: rest⟩ =
        (some ⟨commitListHash (firstCommit :: rest),
            round2Fn S.i S.ski S.pk res.nonce msg (firstCommit :: rest), fresh.2⟩,
          { S with behaviour := .goodMember, responses := fun k =>
            if k = responseHash fresh.2 coord then some ⟨fresh.2, fresh.1, false⟩
            else if k = rh then some ⟨res.commit, ⟨none, none⟩, true⟩
            else S.responses k }) := by
      unfold RespondS
      simp only [hb, hkey, hres, hspent]
      rw [if_neg (by decide : ¬ (MemberBehaviour.goodMember = MemberBehaviour.doesNotRespond))]
      rw [if_neg (fun h => MemberBehaviour.noConfusion h.2)]
      rw [if_neg (by decide : ¬ (false = true))]
      rw [if_neg (fun h =>
        MemberBehaviour.noConfusion h.2 :
        ¬ (firstCommit.i = S.i ∧
          MemberBehaviour.goodMember = MemberBehaviour.withMaliceAforethought))]
      rw [if_neg (by decide : ¬ (MemberBehaviour.goodMember = MemberBehaviour.respondsMaliciously))]
    refine ⟨?_, ?_, ?_⟩
    · rw [hstep]
    · rw [hstep]
      simp only
      rw [if_neg (fun h => hfresh2 h.symm)]
      simp
    · rw [hstep]
      unfold RespondS
      dsimp only
      rw [if_neg (by decide : ¬ (MemberBehaviour.goodMember = MemberBehaviour.doesNotRespond))]
      rw [if_neg (fun h =>
        MemberBehaviour.noConfusion h.2 :
        ¬ (firstCommit.i = S.i ∧
          MemberBehaviour.goodMember = MemberBehaviour.maliciouslyInactive))]
      simp only [hkey]
      rw [if_neg (fun h => hfresh2 h.symm)]
      simp

/-- Witness for C9: signer 1 with one unspent response answers a sign
request for the singleton commitment list, the stored response comes back
spent with a nil nonce pair, and the identical second request yields no
share. -/
theorem RespondS_no_nonce_reuse_witness :
    (RespondS (fun c coord => c.i + coord) (fun _ => (99 : Nat))
      (fun _ _ _ _ _ _ => 42) 0 (⟨some 7, some 8⟩, ⟨2, ⟨0, 0⟩, ⟨0, 0⟩⟩)
      ⟨1, .goodMember, ⟨0, 0⟩, ⟨0, 0⟩, 3, fun k =>
        if k = 1 then some ⟨⟨1, ⟨0, 0⟩, ⟨0, 0⟩⟩, ⟨some 5, some 6⟩, false⟩ else none⟩
      ⟨0, [], [⟨1, ⟨0, 0⟩, ⟨0, 0⟩⟩]⟩).1 =
      some ⟨99, 42, ⟨2, ⟨0, 0⟩, ⟨0, 0⟩⟩⟩ ∧
    ((RespondS (fun c coord => c.i + coord) (fun _ => (99 : Nat))
      (fun _ _ _ _ _ _ => 42) 0 (⟨some 7, some 8⟩, ⟨2, ⟨0, 0⟩, ⟨0, 0⟩⟩)
      ⟨1, .goodMember, ⟨0, 0⟩, ⟨0, 0⟩, 3, fun k =>
        if k = 1 then some ⟨⟨1, ⟨0, 0⟩, ⟨0, 0⟩⟩, ⟨some 5, some 6⟩, false⟩ else none⟩
      ⟨0, [], [⟨1, ⟨0, 0⟩, ⟨0, 0⟩⟩]⟩).2.responses 1 =
      some ⟨⟨1, ⟨0, 0⟩, ⟨0, 0⟩⟩, ⟨none, none⟩, true⟩) ∧
    (RespondS (fun c coord => c.i + coord) (fun _ => (99 : Nat))
      (fun _ _ _ _ _ _ => 42) 0 (⟨some 7, some 8⟩, ⟨2, ⟨0, 0⟩, ⟨0, 0⟩⟩)
      (RespondS (fun c coord => c.i + coord) (fun _ => (99 : Nat))
        (fun _ _ _ _ _ _ => 42) 0 (⟨some 7, some 8⟩, ⟨2, ⟨0, 0⟩, ⟨0, 0⟩⟩)
        ⟨1, .goodMember, ⟨0, 0⟩, ⟨0, 0⟩, 3, fun k =>
          if k = 1 then some ⟨⟨1, ⟨0, 0⟩, ⟨0, 0⟩⟩, ⟨some 5, some 6⟩, false⟩ else none⟩
        ⟨0, [], [⟨1, ⟨0, 0⟩, ⟨0, 0⟩⟩]⟩).2
      ⟨0, [], [⟨1, ⟨0, 0⟩, ⟨0, 0⟩⟩]⟩).1 = none :=
  RespondS_no_nonce_reuse (fun c coord => c.i + coord) (fun _ => (99 : Nat))
    (fun _ _ _ _ _ _ => 42) 0 (⟨some 7, some 8⟩, ⟨2, ⟨0, 0⟩, ⟨0, 0⟩⟩)
    (⟨some 7, some 8⟩, ⟨2, ⟨0, 0⟩, ⟨0, 0⟩⟩)
    ⟨1, .goodMember, ⟨0, 0⟩, ⟨0, 0⟩, 3, fun k =>
      if k = 1 then some ⟨⟨1, ⟨0, 0⟩, ⟨0, 0⟩⟩, ⟨some 5, some 6⟩, false⟩ else none⟩
    ⟨0, [], [⟨1, ⟨0, 0⟩, ⟨0, 0⟩⟩]⟩ 1 ⟨⟨1, ⟨0, 0⟩, ⟨0, 0⟩⟩, ⟨some 5, some 6⟩, false⟩
    rfl (by decide) rfl rfl (by decide)

/-- Witness for C1 at signer index 1 with a one-byte prefix: the frost
construction hashes the prefix followed by eight zero bytes while the
prototype construction appends the big-endian index, and the two disagree. -/
theorem computeBindingFactors_rho_input_zero_padded_witness :
    rhoInputFrost [9] 1 = [9] ++ List.replicate 8 0 ∧
    rhoInputProto [9] 1 = [9] ++ toBytesBE 8 1 ∧
    rhoInputFrost [] 1 ≠ rhoInputProto [] 1 :=
  ⟨computeBindingFactors_rho_input_zero_padded.1 [9] 1,
   computeBindingFactors_rho_input_zero_padded.2.1 [9] 1,
   computeBindingFactors_rho_input_zero_padded.2.2.1⟩
